import Mathlib

/-!
Shallow embedding of the three Python programs of the repository
(convert_numbers.py, compute_statistics.py, word_count.py) and proofs of
the specification claims about them.

Modelling conventions:
* Python strings are lists of characters (List Char).
* Python arbitrary-precision integers are Int; the bitwise expression
  number & 0xffffffff on a Python int equals number mod 2^32, and is
  embedded that way.
* Python floats are embedded as exact rationals: the claims about the
  statistics component concern control flow (division by zero, frequency
  comparisons), not rounding.
* A Python expression that can raise an exception is embedded in Option:
  none is the raised exception.
* Character classes (whitespace, alphabetic) are modelled on the ASCII
  range that the repository's test data exercises.
-/

/-- Character for one binary digit, from bin's base-2 rendering:
digit 1 prints as '1', digit 0 as '0'. -/
def binDigitChar (m : Nat) : Char :=
  if m = 1 then '1' else '0'

/-- Character for one hexadecimal digit as produced by Python's
format(v, 'X'): 0-9 then uppercase A-F.  Only arguments below 16 occur. -/
def hexDigitChar : Nat → Char
  | 0 => '0' | 1 => '1' | 2 => '2' | 3 => '3' | 4 => '4'
  | 5 => '5' | 6 => '6' | 7 => '7' | 8 => '8' | 9 => '9'
  | 10 => 'A' | 11 => 'B' | 12 => 'C' | 13 => 'D' | 14 => 'E' | _ => 'F'

/-- Most-significant-first digit characters of v in base b, written with an
explicit fuel argument so that it is structural (the fuel only needs to
dominate the number of divisions by b). -/
def toBaseAux (b : Nat) (dc : Nat → Char) : Nat → Nat → List Char
  | _, 0 => []
  | 0, _ + 1 => []
  | fuel + 1, v + 1 => toBaseAux b dc fuel ((v + 1) / b) ++ [dc ((v + 1) % b)]

/-- Minimal base-2 digit string of v, most significant first; empty for 0. -/
def binDigits (v : Nat) : List Char := toBaseAux 2 binDigitChar v v

/-- Embedding of Python's bin(v)[2:] for a nonnegative v: minimal binary
digits, except that 0 renders as the single character '0'. -/
def pyBin (v : Nat) : List Char := if v = 0 then ['0'] else binDigits v

/-- Minimal base-16 digit string of v, most significant first; empty for 0. -/
def hexDigits (v : Nat) : List Char := toBaseAux 16 hexDigitChar v v

/-- Embedding of Python's format(v, 'X') for a nonnegative v: minimal
uppercase hexadecimal digits, except that 0 renders as '0'. -/
def pyHex (v : Nat) : List Char := if v = 0 then ['0'] else hexDigits v

/-- Embedding of the Python slice s[-k:] for k at least 1: the rightmost
k characters, or all of s when s is shorter than k. -/
def pySuffix (s : List Char) (k : Nat) : List Char := s.drop (s.length - k)

/-- Embedding of to_twos_complement from convert_numbers.py: trim to the
rightmost bits characters when longer, otherwise left-pad with '1'
characters (the while loop) up to the requested width. -/
def to_twos_complement (binary_str : List Char) (bits : Nat) : List Char :=
  if bits < binary_str.length then pySuffix binary_str bits
  else List.replicate (bits - binary_str.length) '1' ++ binary_str

/-- Embedding of convert_to_binary from convert_numbers.py.  For a
nonnegative number it is bin(number)[2:] then the slice [-10:]; for a
negative number it is bin(number & 0xffffffff)[2:], normalised by
to_twos_complement at width 32, then the slice [-10:]. -/
def convert_to_binary (number : Int) : List Char :=
  if 0 ≤ number then pySuffix (pyBin number.toNat) 10
  else pySuffix (to_twos_complement (pyBin ((number % (2 ^ 32 : Int)).toNat)) 32) 10

/-- Embedding of convert_to_hexadecimal from convert_numbers.py:
format(number & 0xffffffff, 'X'), with the literal marker "FF" prepended
when the number is negative. -/
def convert_to_hexadecimal (number : Int) : List Char :=
  let hexadecimal := pyHex ((number % (2 ^ 32 : Int)).toNat)
  if number < 0 then 'F' :: 'F' :: hexadecimal else hexadecimal

/-- Value of a binary digit string read back as an unsigned base-2 numeral,
as Python's int(s, 2) would on a string of '0' and '1' characters. -/
def decodeBin (s : List Char) : Nat :=
  s.foldl (fun acc c => 2 * acc + (if c = '1' then 1 else 0)) 0

/-- Uppercase hexadecimal digit string taken from the specification's own
words ("the uppercase base-16 digit string of n mod 2^32, no forced zero
padding"), built from Mathlib's base-16 digit expansion rather than from
the source code; used to compare code against spec in claim C2. -/
def specHexString (v : Nat) : List Char :=
  if v = 0 then ['0'] else ((Nat.digits 16 v).map hexDigitChar).reverse

/-! Basic lemmas about the fuel-driven digit expansion. -/

theorem toBaseAux_fuel_irrel (b : Nat) (dc : Nat → Char) (hb : 2 ≤ b) :
    ∀ v f₁ f₂, v ≤ f₁ → v ≤ f₂ → toBaseAux b dc f₁ v = toBaseAux b dc f₂ v := by
  intro v
  induction v using Nat.strong_induction_on with
  | _ v ih =>
    intro f₁ f₂ h₁ h₂
    match v, f₁, f₂ with
    | 0, f₁, f₂ => simp only [toBaseAux]
    | w + 1, f₁ + 1, f₂ + 1 =>
      simp only [toBaseAux]
      have hdiv : (w + 1) / b ≤ w := by
        have h2 : (w + 1) / b ≤ (w + 1) / 2 := Nat.div_le_div_left hb (by omega)
        omega
      rw [ih ((w + 1) / b) (by omega) f₁ f₂ (by omega) (by omega)]

theorem binDigits_zero : binDigits 0 = [] := rfl

theorem binDigits_succ (v : Nat) :
    binDigits (v + 1) = binDigits ((v + 1) / 2) ++ [binDigitChar ((v + 1) % 2)] := by
  have hdiv : (v + 1) / 2 ≤ v := by omega
  show toBaseAux 2 binDigitChar (v + 1) (v + 1) = _
  simp only [toBaseAux]
  rw [toBaseAux_fuel_irrel 2 binDigitChar (by omega) ((v + 1) / 2) v ((v + 1) / 2)
    hdiv (Nat.le_refl _)]
  rfl

theorem hexDigits_zero : hexDigits 0 = [] := rfl

theorem hexDigits_succ (v : Nat) :
    hexDigits (v + 1) = hexDigits ((v + 1) / 16) ++ [hexDigitChar ((v + 1) % 16)] := by
  have hdiv : (v + 1) / 16 ≤ v := by omega
  show toBaseAux 16 hexDigitChar (v + 1) (v + 1) = _
  simp only [toBaseAux]
  rw [toBaseAux_fuel_irrel 16 hexDigitChar (by omega) ((v + 1) / 16) v ((v + 1) / 16)
    hdiv (Nat.le_refl _)]
  rfl

/-! Reading a digit string back as an unsigned base-2 numeral. -/

theorem decodeBin_foldl_shift (l : List Char) :
    ∀ a : Nat, l.foldl (fun acc c => 2 * acc + (if c = '1' then 1 else 0)) a
      = a * 2 ^ l.length + decodeBin l := by
  induction l with
  | nil => intro a; simp [decodeBin]
  | cons c l ih =>
    intro a
    show l.foldl _ (2 * a + _) = _
    rw [ih (2 * a + (if c = '1' then 1 else 0))]
    have hc : decodeBin (c :: l)
        = (if c = '1' then 1 else 0) * 2 ^ l.length + decodeBin l := by
      show l.foldl _ (2 * 0 + _) = _
      rw [ih (2 * 0 + (if c = '1' then 1 else 0))]
      ring_nf
    rw [hc, List.length_cons, pow_succ]
    ring

theorem decodeBin_append (l₁ l₂ : List Char) :
    decodeBin (l₁ ++ l₂) = decodeBin l₁ * 2 ^ l₂.length + decodeBin l₂ := by
  unfold decodeBin
  rw [List.foldl_append]
  exact decodeBin_foldl_shift l₂ _

theorem decodeBin_lt (l : List Char) : decodeBin l < 2 ^ l.length := by
  induction l with
  | nil => simp [decodeBin]
  | cons c l ih =>
    have hc : decodeBin (c :: l)
        = (if c = '1' then 1 else 0) * 2 ^ l.length + decodeBin l := by
      show l.foldl _ (2 * 0 + _) = _
      rw [decodeBin_foldl_shift l (2 * 0 + (if c = '1' then 1 else 0))]
      ring_nf
    rw [hc, List.length_cons, pow_succ]
    by_cases hcc : c = '1' <;> simp only [hcc, if_true, if_false] <;> omega

theorem decodeBin_binDigits (v : Nat) : decodeBin (binDigits v) = v := by
  induction v using Nat.strong_induction_on with
  | _ v ih =>
    match v with
    | 0 => simp [binDigits_zero, decodeBin]
    | w + 1 =>
      rw [binDigits_succ, decodeBin_append, ih ((w + 1) / 2) (by omega)]
      have hd : decodeBin [binDigitChar ((w + 1) % 2)] = (w + 1) % 2 := by
        have : (w + 1) % 2 = 0 ∨ (w + 1) % 2 = 1 := by omega
        rcases this with h | h <;> rw [h] <;> rfl
      rw [hd]
      simp only [List.length_singleton, pow_one]
      omega

theorem decodeBin_pyBin (v : Nat) : decodeBin (pyBin v) = v := by
  unfold pyBin
  split
  · subst v; rfl
  · exact decodeBin_binDigits v

theorem binDigits_length_le (k : Nat) : ∀ v, v < 2 ^ k → (binDigits v).length ≤ k := by
  induction k with
  | zero =>
    intro v hv
    interval_cases v
    simp [binDigits_zero]
  | succ k ih =>
    intro v hv
    match v with
    | 0 => simp [binDigits_zero]
    | w + 1 =>
      rw [binDigits_succ]
      have : (binDigits ((w + 1) / 2)).length ≤ k := by
        apply ih
        have : 2 ^ (k + 1) = 2 ^ k * 2 := by ring
        omega
      simp [List.length_append]
      omega

theorem lt_two_pow_binDigits_length (v : Nat) : v < 2 ^ (binDigits v).length := by
  have := decodeBin_lt (binDigits v)
  rwa [decodeBin_binDigits] at this

theorem binDigits_length_eq_32 (v : Nat) (h1 : 2 ^ 31 ≤ v) (h2 : v < 2 ^ 32) :
    (binDigits v).length = 32 := by
  have hle : (binDigits v).length ≤ 32 := binDigits_length_le 32 v h2
  have hlt := lt_two_pow_binDigits_length v
  by_contra hne
  have : (binDigits v).length ≤ 31 := by omega
  have : 2 ^ (binDigits v).length ≤ 2 ^ 31 := Nat.pow_le_pow_right (by omega) this
  omega

theorem pyBin_length_le (v k : Nat) (hk : 1 ≤ k) (hv : v < 2 ^ k) :
    (pyBin v).length ≤ k := by
  unfold pyBin
  split
  · simpa using hk
  · exact binDigits_length_le k v hv

theorem pySuffix_length (s : List Char) (k : Nat) :
    (pySuffix s k).length = min s.length k := by
  unfold pySuffix
  rw [List.length_drop]
  omega

theorem pySuffix_of_length_le (s : List Char) (k : Nat) (h : s.length ≤ k) :
    pySuffix s k = s := by
  unfold pySuffix
  have : s.length - k = 0 := by omega
  rw [this, List.drop_zero]

theorem decodeBin_pySuffix (s : List Char) (k : Nat) (h : k ≤ s.length) :
    decodeBin (pySuffix s k) = decodeBin s % 2 ^ k := by
  unfold pySuffix
  have hsplit : s = s.take (s.length - k) ++ s.drop (s.length - k) := by
    rw [List.take_append_drop]
  have hlen : (s.drop (s.length - k)).length = k := by
    rw [List.length_drop]; omega
  have hdec : decodeBin s
      = decodeBin (s.take (s.length - k)) * 2 ^ k + decodeBin (s.drop (s.length - k)) := by
    conv_lhs => rw [hsplit]
    rw [decodeBin_append, hlen]
  have hlt : decodeBin (s.drop (s.length - k)) < 2 ^ k := by
    have := decodeBin_lt (s.drop (s.length - k))
    rwa [hlen] at this
  rw [hdec, Nat.add_comm, Nat.add_mul_mod_self_right, Nat.mod_eq_of_lt hlt]

/-! Correspondence between the embedded base-16 rendering and the digit
expansion used to state the specification side of claim C2. -/

theorem hexDigits_eq_digits (v : Nat) :
    hexDigits v = ((Nat.digits 16 v).map hexDigitChar).reverse := by
  induction v using Nat.strong_induction_on with
  | _ v ih =>
    match v with
    | 0 => simp [hexDigits_zero]
    | w + 1 =>
      rw [hexDigits_succ, Nat.digits_def' (by norm_num : (1:Nat) < 16) (by omega)]
      rw [List.map_cons, List.reverse_cons]
      rw [ih ((w + 1) / 16) (by omega)]

theorem pyHex_eq_specHexString (v : Nat) : pyHex v = specHexString v := by
  unfold pyHex specHexString
  split
  · rfl
  · exact hexDigits_eq_digits v

/-! Character classes of the produced strings. -/

/-- Uppercase hexadecimal digit characters: decimal digits or A through F. -/
def isHexUpper (c : Char) : Prop := ('0' ≤ c ∧ c ≤ '9') ∨ ('A' ≤ c ∧ c ≤ 'F')

theorem isHexUpper_hexDigitChar (m : Nat) : isHexUpper (hexDigitChar m) := by
  unfold hexDigitChar
  split <;> (unfold isHexUpper; decide)

theorem mem_binDigits (v : Nat) : ∀ c ∈ binDigits v, c = '0' ∨ c = '1' := by
  induction v using Nat.strong_induction_on with
  | _ v ih =>
    match v with
    | 0 => simp [binDigits_zero]
    | w + 1 =>
      rw [binDigits_succ]
      intro c hc
      rcases List.mem_append.mp hc with h | h
      · exact ih ((w + 1) / 2) (by omega) c h
      · have : c = binDigitChar ((w + 1) % 2) := by simpa using h
        subst this
        unfold binDigitChar
        split
        · right; rfl
        · left; rfl

theorem mem_pyBin (v : Nat) : ∀ c ∈ pyBin v, c = '0' ∨ c = '1' := by
  unfold pyBin
  split
  · intro c hc; left; simpa using hc
  · exact mem_binDigits v

theorem mem_hexDigits (v : Nat) : ∀ c ∈ hexDigits v, isHexUpper c := by
  intro c hc
  rw [hexDigits_eq_digits] at hc
  rcases List.mem_map.mp (List.mem_reverse.mp hc) with ⟨m, _, hm⟩
  rw [← hm]
  exact isHexUpper_hexDigitChar m

theorem mem_pyHex (v : Nat) : ∀ c ∈ pyHex v, isHexUpper c := by
  unfold pyHex
  split
  · intro c hc
    have : c = '0' := by simpa using hc
    subst this
    unfold isHexUpper
    decide
  · exact mem_hexDigits v

/-! Helper lemmas about to_twos_complement and convert_to_binary. -/

theorem length_to_twos_complement (s : List Char) (bits : Nat) :
    (to_twos_complement s bits).length = bits := by
  unfold to_twos_complement
  split
  · rw [pySuffix_length]; omega
  · rw [List.length_append, List.length_replicate]; omega

theorem mem_to_twos_complement (s : List Char) (bits : Nat) :
    ∀ c ∈ to_twos_complement s bits, c ∈ s ∨ c = '1' := by
  unfold to_twos_complement
  split
  · intro c hc
    left
    exact List.drop_subset _ s hc
  · intro c hc
    rcases List.mem_append.mp hc with h | h
    · right; exact List.eq_of_mem_replicate h
    · left; exact h

theorem pyBin_length_pos (v : Nat) : 1 ≤ (pyBin v).length := by
  unfold pyBin
  split
  · simp
  · match v with
    | w + 1 =>
      rw [binDigits_succ, List.length_append]
      simp

theorem hexDigits_ne_nil (v : Nat) (hv : v ≠ 0) : hexDigits v ≠ [] := by
  match v, hv with
  | w + 1, _ =>
    rw [hexDigits_succ]
    simp

theorem pyHex_ne_nil (v : Nat) : pyHex v ≠ [] := by
  unfold pyHex
  split
  · simp
  · exact hexDigits_ne_nil v (by assumption)

theorem emod32_nonneg (n : Int) : 0 ≤ n % (2 ^ 32 : Int) :=
  Int.emod_nonneg n (by positivity)

theorem emod32_toNat_lt (n : Int) : (n % (2 ^ 32 : Int)).toNat < 2 ^ 32 := by
  have h2 := Int.emod_lt_of_pos n (by positivity : (0:Int) < 2 ^ 32)
  have e1 : (2 ^ 32 : Int) = 4294967296 := by norm_num
  have e2 : (2 ^ 32 : Nat) = 4294967296 := by norm_num
  rw [e1] at h2
  rw [e2]
  omega

theorem emod32_toNat_lower (n : Int) (hlo : -(2 ^ 31) ≤ n) (hneg : n < 0) :
    2 ^ 31 ≤ (n % (2 ^ 32 : Int)).toNat := by
  have h1 := emod32_nonneg n
  have e1 : (2 ^ 32 : Int) = 4294967296 := by norm_num
  have e2 : (2 ^ 31 : Int) = 2147483648 := by norm_num
  have e3 : (2 ^ 31 : Nat) = 2147483648 := by norm_num
  rw [e1] at h1 ⊢
  rw [e2] at hlo
  rw [e3]
  omega

theorem length_convert_to_binary (n : Int) :
    (convert_to_binary n).length = if n < 0 then 10 else min (pyBin n.toNat).length 10 := by
  unfold convert_to_binary
  by_cases h0 : 0 ≤ n
  · rw [if_pos h0, if_neg (by omega), pySuffix_length]
  · rw [if_neg h0, if_pos (by omega), pySuffix_length, length_to_twos_complement]
    omega

/-- Claim C1, amended.  For every negative n the output of convert_to_binary
has length exactly 10; for nonnegative n the length is the minimum of 10
and the length of the unpadded binary digit string of n (so strictly less
than 10 for n below 512). -/
theorem C1_toBinary_length (n : Int) :
    (convert_to_binary n).length = if n < 0 then 10 else min (pyBin n.toNat).length 10 :=
  length_convert_to_binary n

/-- Claim C1 counterexample: the claim as stated says the length is 10 for
every integer, but at input 5 the output is the three characters 101. -/
theorem C1_counterexample : (convert_to_binary 5).length ≠ 10 := by decide

/-- Claim C2: convert_to_hexadecimal renders n mod 2^32 as the uppercase
base-16 digit string with no forced padding (stated through the
spec-derived definition specHexString) with the literal marker FF
prepended exactly when n is negative, and takes the three quoted values at
255, 0 and -1. -/
theorem C2_toHexadecimal_spec :
    (∀ n : Int, convert_to_hexadecimal n
      = (if n < 0 then ['F', 'F'] else []) ++ specHexString ((n % (2 ^ 32 : Int)).toNat)) ∧
    convert_to_hexadecimal 255 = ['F', 'F'] ∧
    convert_to_hexadecimal 0 = ['0'] ∧
    convert_to_hexadecimal (-1) = ['F', 'F', 'F', 'F', 'F', 'F', 'F', 'F', 'F', 'F'] := by
  refine ⟨fun n => ?_, by decide, by decide, by decide⟩
  unfold convert_to_hexadecimal
  rw [pyHex_eq_specHexString]
  split <;> simp

theorem decodeBin_convert_to_binary (n : Int) (h : -(2 ^ 31) ≤ n) :
    (decodeBin (convert_to_binary n) : Int) = n % 1024 := by
  unfold convert_to_binary
  by_cases h0 : 0 ≤ n
  · rw [if_pos h0]
    have hval : decodeBin (pySuffix (pyBin n.toNat) 10) = n.toNat % 1024 := by
      by_cases hlen : 10 ≤ (pyBin n.toNat).length
      · rw [decodeBin_pySuffix _ 10 hlen, decodeBin_pyBin]
        norm_num
      · rw [pySuffix_of_length_le _ 10 (by omega), decodeBin_pyBin]
        have hlt : n.toNat < 2 ^ (pyBin n.toNat).length := by
          have := decodeBin_lt (pyBin n.toNat)
          rwa [decodeBin_pyBin] at this
        have : n.toNat < 1024 := by
          have hle : 2 ^ (pyBin n.toNat).length ≤ 2 ^ 10 :=
            Nat.pow_le_pow_right (by omega) (by omega)
          have : (2 : Nat) ^ 10 = 1024 := by norm_num
          omega
        rw [Nat.mod_eq_of_lt this]
    rw [hval]
    omega
  · rw [if_neg h0]
    have hlo := emod32_toNat_lower n h (by omega)
    have hhi := emod32_toNat_lt n
    have hnz : (n % (2 ^ 32 : Int)).toNat ≠ 0 := by
      have : (0:Nat) < 2 ^ 31 := by positivity
      omega
    have hpy : pyBin ((n % (2 ^ 32 : Int)).toNat) = binDigits ((n % (2 ^ 32 : Int)).toNat) := by
      unfold pyBin
      rw [if_neg hnz]
    have hlen : (binDigits ((n % (2 ^ 32 : Int)).toNat)).length = 32 :=
      binDigits_length_eq_32 _ hlo hhi
    have httc : to_twos_complement (pyBin ((n % (2 ^ 32 : Int)).toNat)) 32
        = binDigits ((n % (2 ^ 32 : Int)).toNat) := by
      unfold to_twos_complement
      rw [hpy, if_neg (by omega), hlen]
      simp
    rw [httc]
    rw [decodeBin_pySuffix _ 10 (by omega), decodeBin_binDigits]
    have hcast : ((n % (2 ^ 32 : Int)).toNat : Int) = n % (2 ^ 32 : Int) :=
      Int.toNat_of_nonneg (emod32_nonneg n)
    have hdvd : n % (2 ^ 32 : Int) % 1024 = n % 1024 :=
      Int.emod_emod_of_dvd n (by norm_num)
    have e2 : (2 ^ 10 : Nat) = 1024 := by norm_num
    rw [e2]
    omega

/-- Claim C3, amended.  For every integer n at least -2^31 (in particular
for the whole signed 32-bit input range), reading the string produced by
convert_to_binary back as an unsigned base-2 numeral yields n mod 1024.
Below -2^31 the all-ones left padding of to_twos_complement can corrupt
the low ten characters, so the unrestricted claim fails. -/
theorem C3_roundtrip_amended (n : Int) (h : -(2 ^ 31) ≤ n) :
    (decodeBin (convert_to_binary n) : Int) = n % 1024 :=
  decodeBin_convert_to_binary n h

/-- Claim C3 witness: the amended round-trip at the concrete input -5. -/
theorem C3_witness :
    (-(2 ^ 31 : Int) ≤ -5) ∧ (decodeBin (convert_to_binary (-5)) : Int) = (-5 : Int) % 1024 :=
  ⟨by decide, C3_roundtrip_amended (-5) (by decide)⟩

/-- Claim C3 counterexample: at n = -2^32 the produced string decodes to
1022 while n mod 1024 is 0, so the round-trip claim over all integers is
false. -/
theorem C3_counterexample :
    (decodeBin (convert_to_binary (-4294967296)) : Int) ≠ (-4294967296 : Int) % 1024 := by
  decide

theorem convert_to_binary_small_eq (n : Int) (h0 : 0 ≤ n) (h : n < 1024) :
    convert_to_binary n = pyBin n.toNat := by
  unfold convert_to_binary
  rw [if_pos h0]
  apply pySuffix_of_length_le
  apply pyBin_length_le n.toNat 10 (by omega)
  have : (2 : Nat) ^ 10 = 1024 := by norm_num
  omega

/-- Claim C4, amended.  For every nonnegative n below 1024,
convert_to_binary returns the unpadded binary digit string of n exactly as
bin(n)[2:] produces it; it is not left-padded to 10 characters. -/
theorem C4_toBinary_small_amended (n : Int) (h0 : 0 ≤ n) (h : n < 1024) :
    convert_to_binary n = pyBin n.toNat :=
  convert_to_binary_small_eq n h0 h

/-- Claim C4 witness: the amended statement evaluated at 5, whose output is
the three characters 101. -/
theorem C4_witness :
    ((0 : Int) ≤ 5 ∧ (5 : Int) < 1024) ∧ convert_to_binary 5 = ['1', '0', '1'] :=
  ⟨⟨by decide, by decide⟩,
    (C4_toBinary_small_amended 5 (by decide) (by decide)).trans (by decide)⟩

/-- Claim C4 counterexample: the claim's quoted value toBinary(5) =
0000000101 does not hold; the code returns 101. -/
theorem C4_counterexample :
    convert_to_binary 5 ≠ ['0', '0', '0', '0', '0', '0', '0', '1', '0', '1'] := by
  decide

/-- Claim C5: at width 32, to_twos_complement returns its argument
unchanged when the length is exactly 32, keeps only the rightmost 32
characters when longer, left-pads with '1' characters when shorter, and in
every case returns a string of length exactly 32. -/
theorem C5_to_twos_complement (s : List Char) :
    to_twos_complement s 32
      = (if s.length = 32 then s
         else if 32 < s.length then pySuffix s 32
         else List.replicate (32 - s.length) '1' ++ s) ∧
    (to_twos_complement s 32).length = 32 := by
  refine ⟨?_, length_to_twos_complement s 32⟩
  unfold to_twos_complement
  rcases Nat.lt_trichotomy s.length 32 with hlt | heq | hgt
  · rw [if_neg (show ¬32 < s.length by omega), if_neg (show ¬s.length = 32 by omega)]
  · rw [if_neg (by omega), if_pos heq, heq]
    simp
  · rw [if_pos hgt, if_neg (show ¬s.length = 32 by omega)]

/-- Claim C6: both encoders are total over the integers; the embedding
certifies this by showing that for every integer each returns a nonempty
string over its digit alphabet ('0'/'1' for the binary encoder, uppercase
hexadecimal characters for the other), with no error path in either
function. -/
theorem C6_encoders_total (n : Int) :
    (convert_to_binary n ≠ [] ∧ ∀ c ∈ convert_to_binary n, c = '0' ∨ c = '1') ∧
    (convert_to_hexadecimal n ≠ [] ∧ ∀ c ∈ convert_to_hexadecimal n, isHexUpper c) := by
  constructor
  · constructor
    · have hlen := length_convert_to_binary n
      intro hnil
      rw [hnil] at hlen
      simp at hlen
      split at hlen
      · omega
      · have := pyBin_length_pos n.toNat
        omega
    · unfold convert_to_binary
      split
      · intro c hc
        exact mem_pyBin n.toNat c (List.drop_subset _ _ hc)
      · intro c hc
        have hmem := List.drop_subset _ _ hc
        rcases mem_to_twos_complement _ 32 c hmem with h | h
        · exact mem_pyBin _ c h
        · right; exact h
  · constructor
    · unfold convert_to_hexadecimal
      have hpy := pyHex_ne_nil ((n % (2 ^ 32 : Int)).toNat)
      split <;> simp_all
    · unfold convert_to_hexadecimal
      split
      · intro c hc
        simp only [List.mem_cons] at hc
        rcases hc with h | h | h
        · subst h; unfold isHexUpper; decide
        · subst h; unfold isHexUpper; decide
        · exact mem_pyHex _ c h
      · exact mem_pyHex _

/-! Embedding of the statistics component (compute_statistics.py).  Python
floats are modelled as exact rationals; Python's division raising
ZeroDivisionError on a zero divisor is modelled in Option. -/

/-- Python division a / b: raises ZeroDivisionError (none) when b is 0. -/
def pyDiv (a b : ℚ) : Option ℚ := if b = 0 then none else some (a / b)

/-- Embedding of compute_variance from compute_statistics.py: the value of
sum((x - mean)^2 for x in data) / (len(data) - 1) if data else 0. -/
def compute_variance (data : List ℚ) (mean : ℚ) : Option ℚ :=
  if data.isEmpty then some 0
  else pyDiv ((data.map (fun x => (x - mean) ^ 2)).sum) ((data.length : ℚ) - 1)

theorem compute_variance_nil (mean : ℚ) : compute_variance [] mean = some 0 := rfl

theorem compute_variance_singleton (x mean : ℚ) : compute_variance [x] mean = none := by
  unfold compute_variance pyDiv
  norm_num

theorem compute_variance_of_two_le (data : List ℚ) (mean : ℚ) (h : 2 ≤ data.length) :
    compute_variance data mean
      = some (((data.map (fun x => (x - mean) ^ 2)).sum) / ((data.length : ℚ) - 1)) := by
  unfold compute_variance pyDiv
  rw [if_neg (by
    intro hnil
    rw [List.isEmpty_iff] at hnil
    subst hnil
    simp at h)]
  rw [if_neg (by
    intro hz
    have : (data.length : ℚ) = 1 := by linarith
    have : data.length = 1 := by exact_mod_cast this
    omega)]

/-- Claim C7, amended.  compute_variance returns 0 on the empty list and
the sum of squared deviations divided by len(data) - 1 whenever the list
has at least two elements; but on a single-element list the divisor
len(data) - 1 is zero and the division raises ZeroDivisionError (modelled
as none), so the division does not succeed for every non-empty list. -/
theorem C7_variance_amended (data : List ℚ) (mean : ℚ) :
    compute_variance [] mean = some 0 ∧
    (∀ x : ℚ, compute_variance [x] mean = none) ∧
    (2 ≤ data.length → compute_variance data mean
      = some (((data.map (fun x => (x - mean) ^ 2)).sum) / ((data.length : ℚ) - 1))) :=
  ⟨compute_variance_nil mean, fun x => compute_variance_singleton x mean,
    fun h => compute_variance_of_two_le data mean h⟩

/-- Claim C7 witness: the amended statement at the two-element list [1, 3]
with its mean 2; both parts evaluate concretely and the variance is 2. -/
theorem C7_witness :
    (2 ≤ ([1, 3] : List ℚ).length) ∧
    compute_variance ([1, 3] : List ℚ) 2
      = some (((([1, 3] : List ℚ).map (fun x => (x - 2) ^ 2)).sum)
          / ((([1, 3] : List ℚ).length : ℚ) - 1)) :=
  ⟨by decide, (C7_variance_amended [1, 3] 2).2.2 (by decide)⟩

/-- Claim C7 counterexample: on the single-element list [3] (whose mean is
3) the divisor len(data) - 1 is zero and compute_variance raises instead
of returning a value, refuting "the division succeeds for every non-empty
list, including single-element lists". -/
theorem C7_counterexample : compute_variance ([3] : List ℚ) 3 = none :=
  compute_variance_singleton 3 3

/-! Model of the driver exit codes (claim C8).  File access is abstracted
as an outcome: either the file opens and yields a list of lines, each of
which may or may not parse, or opening fails with FileNotFoundError or
PermissionError.  read_file in both programs catches the two errors and
returns the empty list, and both mains then exit with status 2 on an empty
list, the same status as for a readable file with no parseable line;
status 1 is the usage error, none is normal completion. -/
inductive FileOutcome (α : Type) : Type
  | ok (lines : List (Option α)) : FileOutcome α
  | notFound : FileOutcome α
  | permissionDenied : FileOutcome α

/-- Embedding of read_file from convert_numbers.py over the abstract file
outcome: parseable lines are collected; both open errors yield []. -/
def read_file_convert (r : FileOutcome Int) : List Int :=
  match r with
  | .ok lines => lines.filterMap id
  | .notFound => []
  | .permissionDenied => []

/-- Exit status of main in convert_numbers.py as a function of the
argument count and the file outcome (none means the run continues). -/
def main_exit_convert (argc : Nat) (r : FileOutcome Int) : Option Nat :=
  if argc < 2 then some 1
  else if (read_file_convert r).isEmpty then some 2
  else none

/-- Embedding of read_file from compute_statistics.py over the abstract
file outcome; identical control flow with rational payloads. -/
def read_file_statistics (r : FileOutcome ℚ) : List ℚ :=
  match r with
  | .ok lines => lines.filterMap id
  | .notFound => []
  | .permissionDenied => []

/-- Exit status of main in compute_statistics.py as a function of the
argument count and the file outcome. -/
def main_exit_statistics (argc : Nat) (r : FileOutcome ℚ) : Option Nat :=
  if argc < 2 then some 1
  else if (read_file_statistics r).isEmpty then some 2
  else none

/-- Claim C8, amended.  In both programs an unreadable file (not found or
permission denied) aborts with the non-zero status 2 - but that is the
same status used when the file is readable and no line parses, not a
different one; only the usage error (too few arguments) is distinct, with
status 1. -/
theorem C8_exit_codes_amended (ls : List (Option Int)) (qs : List (Option ℚ)) :
    main_exit_convert 2 FileOutcome.notFound = some 2 ∧
    main_exit_convert 2 FileOutcome.permissionDenied = some 2 ∧
    main_exit_convert 2 (FileOutcome.ok ls)
      = (if (ls.filterMap id).isEmpty then some 2 else none) ∧
    main_exit_statistics 2 FileOutcome.notFound = some 2 ∧
    main_exit_statistics 2 FileOutcome.permissionDenied = some 2 ∧
    main_exit_statistics 2 (FileOutcome.ok qs)
      = (if (qs.filterMap id).isEmpty then some 2 else none) ∧
    main_exit_convert 1 FileOutcome.notFound = some 1 ∧
    (2 : Nat) ≠ 0 := by
  refine ⟨rfl, rfl, rfl, rfl, rfl, rfl, rfl, by omega⟩

/-- Claim C8 counterexample: a missing file and a readable file whose only
line fails to parse make main exit with the same status 2 in both
programs, so the two conditions are not distinguished by different exit
codes as claimed. -/
theorem C8_counterexample :
    main_exit_convert 2 FileOutcome.notFound
      = main_exit_convert 2 (FileOutcome.ok [none]) ∧
    main_exit_statistics 2 FileOutcome.notFound
      = main_exit_statistics 2 (FileOutcome.ok [none]) := ⟨rfl, rfl⟩

/-! Embedding of the word-count component (word_count.py).  A Python dict
with insertion-order iteration is an association list with unique keys;
dictGet is d.get(k, 0) and dictSet is d[k] = v. -/

/-- Lookup with default 0, as Python's word_count.get(word, 0). -/
def dictGet {κ : Type} [DecidableEq κ] : List (κ × Nat) → κ → Nat
  | [], _ => 0
  | p :: ps, k => if p.1 = k then p.2 else dictGet ps k

/-- Assignment d[k] = v on an insertion-ordered dict: overwrite the entry
in place when the key is present, otherwise append a new entry. -/
def dictSet {κ : Type} [DecidableEq κ] : List (κ × Nat) → κ → Nat → List (κ × Nat)
  | [], k, v => [(k, v)]
  | p :: ps, k, v => if p.1 = k then (k, v) :: ps else p :: dictSet ps k v

/-- The counting step d[k] = d.get(k, 0) + 1 used by both programs. -/
def dictIncr {κ : Type} [DecidableEq κ] (d : List (κ × Nat)) (k : κ) : List (κ × Nat) :=
  dictSet d k (dictGet d k + 1)

/-- Whitespace characters recognised by str.strip and str.split (ASCII
range): space, tab, newline, carriage return, vertical tab, form feed. -/
def pyIsSpace (c : Char) : Bool :=
  (c == ' ') || (c == '\t') || (c == '\n') || (c == '\r') || (c == '\x0b') || (c == '\x0c')

/-- Embedding of text.split('\n'): one (possibly empty) chunk per newline
separator, n separators giving n + 1 chunks. -/
def splitNL : List Char → List (List Char)
  | [] => [[]]
  | c :: cs =>
    if c = '\n' then [] :: splitNL cs
    else
      match splitNL cs with
      | [] => [[c]]
      | l :: ls => (c :: l) :: ls

/-- Condition not line.strip(): the line contains only whitespace. -/
def isBlankLine (l : List Char) : Bool := l.all pyIsSpace

/-- Accumulator-based splitter behind pySplitWs; cur holds the current
word reversed. -/
def wordsAux : List Char → List Char → List (List Char)
  | [], cur => if cur.isEmpty then [] else [cur.reverse]
  | c :: cs, cur =>
    if pyIsSpace c then
      if cur.isEmpty then wordsAux cs [] else cur.reverse :: wordsAux cs []
    else wordsAux cs (c :: cur)

/-- Embedding of line.split() with no argument: maximal runs of
non-whitespace characters, no empty words. -/
def pySplitWs (l : List Char) : List (List Char) := wordsAux l []

/-- Embedding of word.isalpha(): nonempty and all alphabetic. -/
def isAlphaWord (w : List Char) : Bool := !w.isEmpty && w.all Char.isAlpha

/-- Embedding of count_words from word_count.py: start from the dict
containing ("(Blank)", 0); each all-whitespace line increments "(Blank)";
each other line is split into words, and each purely alphabetic word
increments its own counter (other words are only logged). -/
def count_words (text : List Char) : List (String × Nat) :=
  (splitNL text).foldl
    (fun wc line =>
      if isBlankLine line then dictIncr wc "(Blank)"
      else (pySplitWs line).foldl
        (fun wc2 w => if isAlphaWord w then dictIncr wc2 (String.mk w) else wc2) wc)
    [("(Blank)", 0)]

/-- Embedding of sorted(word_count.items(), key=lambda x: x[1],
reverse=True): the entries sorted by descending count. -/
def sortedCounts (wc : List (String × Nat)) : List (String × Nat) :=
  wc.mergeSort (fun a b => decide (b.2 ≤ a.2))

/-- Embedding of the summation loop of main in word_count.py: iterate over
the sorted entries accumulating sum_of_words. -/
def grandTotal (wc : List (String × Nat)) : Nat :=
  (sortedCounts wc).foldl (fun acc p => acc + p.2) 0

theorem foldl_add_snd (l : List (String × Nat)) :
    ∀ a : Nat, l.foldl (fun acc p => acc + p.2) a = a + (l.map Prod.snd).sum := by
  induction l with
  | nil => intro a; simp
  | cons p l ih =>
    intro a
    rw [List.foldl_cons, ih (a + p.2), List.map_cons, List.sum_cons]
    omega

theorem grandTotal_eq_sum (wc : List (String × Nat)) :
    grandTotal wc = (wc.map Prod.snd).sum := by
  unfold grandTotal
  rw [foldl_add_snd _ 0, Nat.zero_add]
  exact ((List.mergeSort_perm wc _).map Prod.snd).sum_eq

theorem mem_fst_dictSet {κ : Type} [DecidableEq κ] (d : List (κ × Nat)) (k k' : κ) (v : Nat)
    (h : k' ∈ d.map Prod.fst) : k' ∈ (dictSet d k v).map Prod.fst := by
  induction d with
  | nil => simp at h
  | cons p ps ih =>
    unfold dictSet
    split
    · rcases List.mem_map.mp h with ⟨q, hq, hfst⟩
      rcases List.mem_cons.mp hq with hq | hq
      · subst hq
        simp_all
      · right
        rw [← hfst]
        exact List.mem_map_of_mem Prod.fst hq
    · rcases List.mem_map.mp h with ⟨q, hq, hfst⟩
      rcases List.mem_cons.mp hq with hq | hq
      · subst hq
        rw [← hfst]
        exact List.mem_map_of_mem Prod.fst (List.mem_cons_self _ _)
      · have : k' ∈ (dictSet ps k v).map Prod.fst := ih (by
          rw [← hfst]
          exact List.mem_map_of_mem Prod.fst hq)
        simpa using Or.inr this

theorem foldl_preserves {α β : Type} (P : β → Prop) (f : β → α → β)
    (hstep : ∀ b a, P b → P (f b a)) :
    ∀ (l : List α) (b : β), P b → P (l.foldl f b) := by
  intro l
  induction l with
  | nil => intro b hb; exact hb
  | cons a l ih =>
    intro b hb
    exact ih (f b a) (hstep b a hb)

theorem mem_fst_count_words_blank (text : List Char) :
    "(Blank)" ∈ (count_words text).map Prod.fst := by
  unfold count_words
  refine foldl_preserves (fun d : List (String × Nat) => "(Blank)" ∈ d.map Prod.fst) _ ?_ (splitNL text) _ (by simp)
  intro d line hd
  dsimp only
  split
  · exact mem_fst_dictSet d _ _ _ hd
  · refine foldl_preserves (fun d2 : List (String × Nat) => "(Blank)" ∈ d2.map Prod.fst) _ ?_ (pySplitWs line) d hd
    intro d2 w hd2
    dsimp only
    split
    · exact mem_fst_dictSet d2 _ _ _ hd2
    · exact hd2

theorem sortedCounts_pairwise (wc : List (String × Nat)) :
    List.Pairwise (fun a b : String × Nat => b.2 ≤ a.2) (sortedCounts wc) := by
  have h : List.Pairwise
      (fun a b : String × Nat => (fun a b : String × Nat => decide (b.2 ≤ a.2)) a b = true)
      (sortedCounts wc) := by
    unfold sortedCounts
    apply List.sorted_mergeSort
    · intro a b c h₁ h₂
      simp only [decide_eq_true_eq] at h₁ h₂ ⊢
      omega
    · intro a b
      simp only [Bool.or_eq_true, decide_eq_true_eq]
      omega
  exact h.imp (fun hab => by simpa using hab)

/-- Claim C9: for every input text, the Grand Total computed by the main
loop of word_count.py equals the sum of all counts produced by
count_words (the "(Blank)" counter is one of those counts: it is always a
key of the dict), and the emitted word and count pairs are sorted by
descending count. -/
theorem C9_word_count_output (text : List Char) :
    grandTotal (count_words text) = ((count_words text).map Prod.snd).sum ∧
    "(Blank)" ∈ (count_words text).map Prod.fst ∧
    List.Pairwise (fun a b : String × Nat => b.2 ≤ a.2) (sortedCounts (count_words text)) :=
  ⟨grandTotal_eq_sum (count_words text), mem_fst_count_words_blank text,
    sortedCounts_pairwise (count_words text)⟩

/-! Embedding of compute_mode from compute_statistics.py. -/

/-- Return value of compute_mode: the Python function returns either the
string "NA" or a number from the list. -/
inductive ModeResult : Type
  | na : ModeResult
  | val (q : ℚ) : ModeResult
deriving DecidableEq

/-- The frequency dict built by the first loop of compute_mode:
frequency[num] = frequency.get(num, 0) + 1 over the data in order. -/
def freqOf (data : List ℚ) : List (ℚ × Nat) :=
  data.foldl (fun frequency num => dictIncr frequency num) []

/-- Embedding of max(frequency.values(), default=0). -/
def maxFreq (frequency : List (ℚ × Nat)) : Nat :=
  (frequency.map Prod.snd).foldr max 0

/-- Embedding of [key for key, val in frequency.items() if val ==
max_frequency]. -/
def modesOf (frequency : List (ℚ × Nat)) : List ℚ :=
  (frequency.filter (fun p => p.2 == maxFreq frequency)).map Prod.fst

/-- Embedding of compute_mode: "NA" when len(data) == len(modes), else
modes[0]; none models the (unreachable for nonempty data) IndexError of
modes[0] on an empty modes list. -/
def compute_mode (data : List ℚ) : Option ModeResult :=
  if data.length = (modesOf (freqOf data)).length then some ModeResult.na
  else
    match modesOf (freqOf data) with
    | [] => none
    | m :: _ => some (ModeResult.val m)

/-! Association-list lemmas for the frequency dict. -/

theorem map_fst_dictSet {κ : Type} [DecidableEq κ] (d : List (κ × Nat)) (k : κ) (v : Nat) :
    (dictSet d k v).map Prod.fst
      = if k ∈ d.map Prod.fst then d.map Prod.fst else d.map Prod.fst ++ [k] := by
  induction d with
  | nil => simp [dictSet]
  | cons p ps ih =>
    unfold dictSet
    by_cases hpk : p.1 = k
    · rw [if_pos hpk]
      simp [hpk]
    · rw [if_neg hpk]
      rw [List.map_cons, List.map_cons, ih]
      by_cases hmem : k ∈ ps.map Prod.fst
      · rw [if_pos hmem, if_pos (by simp [hmem])]
      · rw [if_neg hmem, if_neg (by
          simp only [List.mem_cons]
          rintro (h | h)
          · exact hpk h.symm
          · exact hmem h)]
        simp

theorem mem_fst_dictSet_self {κ : Type} [DecidableEq κ] (d : List (κ × Nat)) (k : κ) (v : Nat) :
    k ∈ (dictSet d k v).map Prod.fst := by
  rw [map_fst_dictSet]
  split
  · assumption
  · simp

theorem nodup_fst_dictSet {κ : Type} [DecidableEq κ] (d : List (κ × Nat)) (k : κ) (v : Nat)
    (h : (d.map Prod.fst).Nodup) : ((dictSet d k v).map Prod.fst).Nodup := by
  rw [map_fst_dictSet]
  by_cases hmem : k ∈ d.map Prod.fst
  · rw [if_pos hmem]
    exact h
  · rw [if_neg hmem, List.nodup_append]
    refine ⟨h, List.nodup_singleton k, ?_⟩
    intro a ha hk
    rw [List.mem_singleton] at hk
    subst hk
    exact hmem ha

theorem mem_dictSet_elim {κ : Type} [DecidableEq κ] (d : List (κ × Nat)) (k : κ) (v : Nat)
    (hnd : (d.map Prod.fst).Nodup) (p : κ × Nat) (hp : p ∈ dictSet d k v) :
    p = (k, v) ∨ (p ∈ d ∧ p.1 ≠ k) := by
  induction d with
  | nil =>
    left
    simpa [dictSet] using hp
  | cons q qs ih =>
    rw [List.map_cons, List.nodup_cons] at hnd
    unfold dictSet at hp
    by_cases hqk : q.1 = k
    · rw [if_pos hqk] at hp
      rcases List.mem_cons.mp hp with h | h
      · left; exact h
      · right
        refine ⟨List.mem_cons_of_mem q h, ?_⟩
        intro hpk
        apply hnd.1
        have hm : p.1 ∈ List.map Prod.fst qs := List.mem_map_of_mem Prod.fst h
        rw [hpk, ← hqk] at hm
        exact hm
    · rw [if_neg hqk] at hp
      rcases List.mem_cons.mp hp with h | h
      · right
        subst h
        exact ⟨List.mem_cons_self _ _, hqk⟩
      · rcases ih hnd.2 h with h' | h'
        · left; exact h'
        · right; exact ⟨List.mem_cons_of_mem q h'.1, h'.2⟩

theorem dictGet_eq_of_entries {κ : Type} [DecidableEq κ] (cnt : κ → Nat) (k : κ) :
    ∀ d : List (κ × Nat), (∀ p ∈ d, p.2 = cnt p.1) →
      (k ∉ d.map Prod.fst → cnt k = 0) → dictGet d k = cnt k := by
  intro d
  induction d with
  | nil =>
    intro _ hout
    unfold dictGet
    rw [hout (by simp)]
  | cons p ps ih =>
    intro hent hout
    unfold dictGet
    by_cases hpk : p.1 = k
    · rw [if_pos hpk, hent p (List.mem_cons_self _ _), hpk]
    · rw [if_neg hpk]
      apply ih (fun q hq => hent q (List.mem_cons_of_mem p hq))
      intro hnot
      apply hout
      simp only [List.map_cons, List.mem_cons]
      rintro (h | h)
      · exact hpk h.symm
      · exact hnot h

theorem sum_snd_dictIncr {κ : Type} [DecidableEq κ] (k : κ) :
    ∀ d : List (κ × Nat),
      ((dictIncr d k).map Prod.snd).sum = (d.map Prod.snd).sum + 1 := by
  intro d
  induction d with
  | nil => simp [dictIncr, dictGet, dictSet]
  | cons p ps ih =>
    unfold dictIncr dictGet dictSet
    by_cases hpk : p.1 = k
    · rw [if_pos hpk, if_pos hpk]
      simp only [List.map_cons, List.sum_cons]
      omega
    · rw [if_neg hpk, if_neg hpk]
      simp only [List.map_cons, List.sum_cons]
      unfold dictIncr at ih
      rw [ih]
      omega

/-- Invariant of the frequency dict for a processed prefix l of the data:
keys are distinct, every entry carries the exact multiplicity of its key
in l, every element of l has an entry, and the values sum to the length
of l. -/
def FreqInv (l : List ℚ) (d : List (ℚ × Nat)) : Prop :=
  (d.map Prod.fst).Nodup ∧
  (∀ p ∈ d, p.1 ∈ l ∧ p.2 = l.count p.1) ∧
  (∀ x ∈ l, x ∈ d.map Prod.fst) ∧
  (d.map Prod.snd).sum = l.length

theorem freqInv_nil : FreqInv [] [] := by
  refine ⟨List.nodup_nil, ?_, ?_, rfl⟩ <;> simp

theorem freqInv_step (l : List ℚ) (d : List (ℚ × Nat)) (x : ℚ) (h : FreqInv l d) :
    FreqInv (l ++ [x]) (dictIncr d x) := by
  obtain ⟨hnd, hent, hcov, hsum⟩ := h
  have hget : dictGet d x = l.count x := by
    apply dictGet_eq_of_entries (fun k => l.count k) x d (fun p hp => (hent p hp).2)
    intro hnot
    rw [List.count_eq_zero]
    intro hxl
    exact hnot (hcov x hxl)
  refine ⟨nodup_fst_dictSet d x _ hnd, ?_, ?_, ?_⟩
  · intro p hp
    rcases mem_dictSet_elim d x _ hnd p hp with hpkv | ⟨hpd, hne⟩
    · subst hpkv
      constructor
      · simp
      · rw [List.count_append, hget]
        simp
    · rcases hent p hpd with ⟨hmem, hcnt⟩
      constructor
      · exact List.mem_append_left _ hmem
      · rw [List.count_append, hcnt]
        have : List.count p.1 [x] = 0 := by
          rw [List.count_eq_zero]
          simp only [List.mem_singleton]
          intro hpx
          exact hne hpx
        omega
  · intro y hy
    rcases List.mem_append.mp hy with hy | hy
    · exact mem_fst_dictSet d x y _ (hcov y hy)
    · rw [List.mem_singleton] at hy
      subst hy
      exact mem_fst_dictSet_self d _ _
  · rw [sum_snd_dictIncr, hsum]
    simp

theorem freqInv_freqOf (data : List ℚ) : FreqInv data (freqOf data) := by
  induction data using List.reverseRecOn with
  | nil => exact freqInv_nil
  | append_singleton l x ih =>
    have hfold : freqOf (l ++ [x]) = dictIncr (freqOf l) x := by
      unfold freqOf
      rw [List.foldl_append]
      rfl
    rw [hfold]
    exact freqInv_step l (freqOf l) x ih

/-! Arithmetic facts about value lists. -/

theorem foldr_max_le (vs : List Nat) : ∀ v ∈ vs, v ≤ vs.foldr max 0 := by
  induction vs with
  | nil => simp
  | cons w vs ih =>
    intro v hv
    rcases List.mem_cons.mp hv with h | h
    · subst h
      exact le_max_left v _
    · exact le_trans (ih v h) (le_max_right w _)

theorem foldr_max_mem_or_zero (vs : List Nat) :
    vs.foldr max 0 = 0 ∨ vs.foldr max 0 ∈ vs := by
  induction vs with
  | nil => left; rfl
  | cons w vs ih =>
    rcases Nat.le_total w (vs.foldr max 0) with h | h
    · rw [List.foldr_cons, Nat.max_eq_right h]
      rcases ih with h0 | hm
      · rw [h0]
        right
        rw [h0] at h
        have : w = 0 := by omega
        subst this
        exact List.mem_cons_self _ _
      · right
        exact List.mem_cons_of_mem w hm
    · rw [List.foldr_cons, Nat.max_eq_left h]
      right
      exact List.mem_cons_self _ _

theorem length_le_sum_of_one_le (vs : List Nat) (h : ∀ v ∈ vs, 1 ≤ v) :
    vs.length ≤ vs.sum := by
  induction vs with
  | nil => simp
  | cons w vs ih =>
    have hw := h w (List.mem_cons_self _ _)
    have := ih (fun v hv => h v (List.mem_cons_of_mem w hv))
    simp only [List.length_cons, List.sum_cons]
    omega

theorem all_one_of_sum_eq_length (vs : List Nat) (h1 : ∀ v ∈ vs, 1 ≤ v)
    (h2 : vs.sum = vs.length) : ∀ v ∈ vs, v = 1 := by
  induction vs with
  | nil => simp
  | cons w vs ih =>
    have hw := h1 w (List.mem_cons_self _ _)
    have hlen := length_le_sum_of_one_le vs (fun v hv => h1 v (List.mem_cons_of_mem w hv))
    simp only [List.sum_cons, List.length_cons] at h2
    have hw1 : w = 1 := by omega
    have hsum : vs.sum = vs.length := by omega
    intro v hv
    rcases List.mem_cons.mp hv with h | h
    · subst h; exact hw1
    · exact ih (fun u hu => h1 u (List.mem_cons_of_mem w hu)) hsum v h

theorem sum_eq_length_of_all_one (vs : List Nat) (h : ∀ v ∈ vs, v = 1) :
    vs.sum = vs.length := by
  induction vs with
  | nil => rfl
  | cons w vs ih =>
    rw [List.sum_cons, List.length_cons, h w (List.mem_cons_self _ _),
      ih (fun v hv => h v (List.mem_cons_of_mem w hv))]
    omega

theorem filter_all_of_length_eq {α : Type} (p : α → Bool) (l : List α)
    (h : (l.filter p).length = l.length) : ∀ a ∈ l, p a = true := by
  induction l with
  | nil => simp
  | cons a l ih =>
    by_cases hpa : p a = true
    · rw [List.filter_cons_of_pos hpa] at h
      simp only [List.length_cons, Nat.add_right_cancel_iff] at h
      intro b hb
      rcases List.mem_cons.mp hb with hb | hb
      · subst hb; exact hpa
      · exact ih h b hb
    · rw [List.filter_cons_of_neg (by simpa using hpa)] at h
      have := List.length_filter_le p l
      simp only [List.length_cons] at h
      omega

/-! Consequences of the frequency invariant for compute_mode. -/

theorem freq_values_one_le (data : List ℚ) :
    ∀ v ∈ (freqOf data).map Prod.snd, 1 ≤ v := by
  obtain ⟨_, hent, _, _⟩ := freqInv_freqOf data
  intro v hv
  rcases List.mem_map.mp hv with ⟨p, hp, hsnd⟩
  rcases hent p hp with ⟨hmem, hcnt⟩
  rw [← hsnd, hcnt]
  exact List.count_pos_iff.mpr hmem

theorem freqOf_ne_nil (data : List ℚ) (h : data ≠ []) : freqOf data ≠ [] := by
  obtain ⟨_, _, hcov, _⟩ := freqInv_freqOf data
  rcases List.exists_mem_of_ne_nil data h with ⟨x, hx⟩
  have := hcov x hx
  intro hnil
  rw [hnil] at this
  simp at this

theorem maxFreq_attained (data : List ℚ) (h : data ≠ []) :
    ∃ p ∈ freqOf data, p.2 = maxFreq (freqOf data) := by
  rcases foldr_max_mem_or_zero ((freqOf data).map Prod.snd) with h0 | hm
  · exfalso
    have hne := freqOf_ne_nil data h
    rcases List.exists_mem_of_ne_nil (freqOf data) hne with ⟨p, hp⟩
    have h1 := freq_values_one_le data p.2 (List.mem_map_of_mem Prod.snd hp)
    have h2 := foldr_max_le ((freqOf data).map Prod.snd) p.2 (List.mem_map_of_mem Prod.snd hp)
    unfold maxFreq at *
    omega
  · rcases List.mem_map.mp hm with ⟨p, hp, hsnd⟩
    exact ⟨p, hp, hsnd⟩

theorem count_le_maxFreq (data : List ℚ) (x : ℚ) (hx : x ∈ data) :
    data.count x ≤ maxFreq (freqOf data) := by
  obtain ⟨_, hent, hcov, _⟩ := freqInv_freqOf data
  rcases List.mem_map.mp (hcov x hx) with ⟨p, hp, hfst⟩
  have hcnt := (hent p hp).2
  rw [hfst] at hcnt
  rw [← hcnt]
  exact foldr_max_le _ p.2 (List.mem_map_of_mem Prod.snd hp)

theorem mem_modes_count (data : List ℚ) (m : ℚ) (hm : m ∈ modesOf (freqOf data)) :
    m ∈ data ∧ data.count m = maxFreq (freqOf data) := by
  obtain ⟨_, hent, _, _⟩ := freqInv_freqOf data
  unfold modesOf at hm
  rcases List.mem_map.mp hm with ⟨p, hp, hfst⟩
  rcases List.mem_filter.mp hp with ⟨hpf, hpmax⟩
  rcases hent p hpf with ⟨hmem, hcnt⟩
  have hpm : p.2 = maxFreq (freqOf data) := by simpa using hpmax
  subst hfst
  exact ⟨hmem, by rw [← hcnt, hpm]⟩

theorem na_length_iff (data : List ℚ) (h : data ≠ []) :
    data.length = (modesOf (freqOf data)).length ↔ ∀ x ∈ data, data.count x = 1 := by
  obtain ⟨_, hent, hcov, hsum⟩ := freqInv_freqOf data
  constructor
  · intro heq
    have h1 : (modesOf (freqOf data)).length
        = ((freqOf data).filter (fun p => p.2 == maxFreq (freqOf data))).length := by
      unfold modesOf
      rw [List.length_map]
    have h2 : ((freqOf data).filter (fun p => p.2 == maxFreq (freqOf data))).length
        ≤ (freqOf data).length := List.length_filter_le _ _
    have h3 : (freqOf data).length = ((freqOf data).map Prod.snd).length :=
      (List.length_map _ _).symm
    have h4 : ((freqOf data).map Prod.snd).length ≤ ((freqOf data).map Prod.snd).sum :=
      length_le_sum_of_one_le _ (freq_values_one_le data)
    have hall1 : ∀ v ∈ (freqOf data).map Prod.snd, v = 1 := by
      apply all_one_of_sum_eq_length _ (freq_values_one_le data)
      omega
    intro x hx
    rcases List.mem_map.mp (hcov x hx) with ⟨p, hp, hfst⟩
    have hcnt := (hent p hp).2
    rw [hfst] at hcnt
    rw [← hcnt]
    exact hall1 p.2 (List.mem_map_of_mem Prod.snd hp)
  · intro hall
    have hall1 : ∀ v ∈ (freqOf data).map Prod.snd, v = 1 := by
      intro v hv
      rcases List.mem_map.mp hv with ⟨p, hp, hsnd⟩
      rcases hent p hp with ⟨hmem, hcnt⟩
      rw [← hsnd, hcnt]
      exact hall p.1 hmem
    have hmax1 : maxFreq (freqOf data) = 1 := by
      rcases maxFreq_attained data h with ⟨p, hp, hpm⟩
      rw [← hpm]
      exact hall1 p.2 (List.mem_map_of_mem Prod.snd hp)
    have hfilter : (freqOf data).filter (fun p => p.2 == maxFreq (freqOf data))
        = freqOf data := by
      apply List.filter_eq_self.mpr
      intro p hp
      have := hall1 p.2 (List.mem_map_of_mem Prod.snd hp)
      simp [this, hmax1]
    unfold modesOf
    rw [hfilter, List.length_map]
    have hs1 := sum_eq_length_of_all_one _ hall1
    have hs2 : ((freqOf data).map Prod.snd).length = (freqOf data).length :=
      List.length_map _ _
    omega

/-- Claim C10: for nonempty data, compute_mode returns "NA" exactly when
every element of the list occurs exactly once; in every other case it
returns (without error) an element of the list whose frequency in the
list is maximal. -/
theorem C10_compute_mode (data : List ℚ) (h : data ≠ []) :
    (compute_mode data = some ModeResult.na ↔ ∀ x ∈ data, data.count x = 1) ∧
    (∀ m : ℚ, compute_mode data = some (ModeResult.val m) →
      m ∈ data ∧ ∀ x ∈ data, data.count x ≤ data.count m) ∧
    compute_mode data ≠ none := by
  have hna := na_length_iff data h
  refine ⟨⟨?_, ?_⟩, ?_, ?_⟩
  · intro hmode
    unfold compute_mode at hmode
    split at hmode
    · exact hna.mp (by assumption)
    · exfalso
      rcases hmm : modesOf (freqOf data) with _ | ⟨m0, rest⟩ <;> rw [hmm] at hmode <;>
        simp at hmode
  · intro hall
    unfold compute_mode
    rw [if_pos (hna.mpr hall)]
  · intro m hm
    unfold compute_mode at hm
    split at hm
    · simp at hm
    · rcases hmm : modesOf (freqOf data) with _ | ⟨m0, rest⟩ <;> rw [hmm] at hm
      · simp at hm
      · have hm0 : m0 = m := by
          simpa using hm
        subst hm0
        have hmem : m0 ∈ modesOf (freqOf data) := by
          rw [hmm]
          exact List.mem_cons_self _ _
        rcases mem_modes_count data m0 hmem with ⟨hmd, hcnt⟩
        refine ⟨hmd, ?_⟩
        intro x hx
        rw [hcnt]
        exact count_le_maxFreq data x hx
  · unfold compute_mode
    split
    · simp
    · rcases maxFreq_attained data h with ⟨p, hpf, hpm⟩
      have hpfil : p ∈ (freqOf data).filter (fun q => q.2 == maxFreq (freqOf data)) :=
        List.mem_filter.mpr ⟨hpf, by simp [hpm]⟩
      have hmem : p.1 ∈ modesOf (freqOf data) := by
        unfold modesOf
        exact List.mem_map_of_mem Prod.fst hpfil
      rcases hmm : modesOf (freqOf data) with _ | ⟨m0, rest⟩
      · rw [hmm] at hmem
        simp at hmem
      · simp

/-- Claim C10 witness: the theorem applied to the concrete list [1, 1, 2],
where compute_mode returns the value 1 of maximal frequency 2. -/
theorem C10_witness :
    (([1, 1, 2] : List ℚ) ≠ []) ∧
    ((compute_mode [1, 1, 2] = some ModeResult.na
        ↔ ∀ x ∈ ([1, 1, 2] : List ℚ), ([1, 1, 2] : List ℚ).count x = 1) ∧
      (∀ m : ℚ, compute_mode [1, 1, 2] = some (ModeResult.val m) →
        m ∈ ([1, 1, 2] : List ℚ) ∧
          ∀ x ∈ ([1, 1, 2] : List ℚ),
            ([1, 1, 2] : List ℚ).count x ≤ ([1, 1, 2] : List ℚ).count m) ∧
      compute_mode [1, 1, 2] ≠ none) :=
  ⟨by decide, C10_compute_mode [1, 1, 2] (by decide)⟩
